import Mathlib

/-!
Verification of the crovia-core-engine allocation engine and chain-of-custody
subsystem against its specification.

The Python sources are shallowly embedded:
* floats are modelled as exact rationals (ℚ);
* Python dicts (which preserve insertion order and have unique keys) are
  modelled as association lists `List (String × ℚ)`;
* `round(x, 2)` is modelled as round-half-to-even at two decimals;
* the hash-chain writer/verifier are parametrised by abstract functions for
  `hashlib.sha256(...).hexdigest()`, `bytes.fromhex` and `str.encode`, since
  the claims about them depend only on the chaining structure;
* fallible steps return `Except`/sum types.
-/

namespace Crovia

/-- Association list modelling a Python `Dict[str, float]` (insertion order). -/
abbrev AList := List (String × ℚ)

/-- `EPS = 1e-12` from payouts_from_royalties.py. -/
def EPS : ℚ := 1 / 10 ^ 12

/-- Sum of the values of a dict, `sum(w.values())`. -/
def sumVals (w : AList) : ℚ := (w.map Prod.snd).sum

/-- Key list of a dict. -/
def keys (w : AList) : List String := w.map Prod.fst

/-- `w[k]`, defaulting to `0` when the key is absent (Python dicts cannot have
duplicate keys, so lookups take the first occurrence). -/
def getD (w : AList) (k : String) : ℚ := (w.lookup k).getD 0

/-- `w[k] = v`: replace the value at the first occurrence of key `k`. -/
def setFirst : AList → String → ℚ → AList
  | [], _, _ => []
  | kv :: t, k, v => if kv.1 = k then (kv.1, v) :: t else kv :: setFirst t k v

/-- List filtering with a decidable Prop predicate (used to model Python
comprehensions such as `{k: v for k, v in w.items() if v > 0}`). -/
def pfilter {α : Type} (p : α → Prop) [DecidablePred p] : List α → List α
  | [] => []
  | x :: t => if p x then x :: pfilter p t else pfilter p t

/-- Python `max(w.items(), key=lambda kv: kv[1])`: the first item attaining the
maximal value (Python `max` replaces the running best only on strict `>`). -/
def pyMax : AList → Option (String × ℚ)
  | [] => none
  | kv :: t => some (t.foldl (fun best x => if best.2 < x.2 then x else best) kv)

/-- Stable insertion used to model Python `sorted(..., key=value, reverse=True)`:
`x` is placed before the first element with value `≤ x`, so that items that
compare equal keep their original relative order. -/
def insertDesc (x : String × ℚ) : AList → AList
  | [] => [x]
  | y :: t => if y.2 ≤ x.2 then x :: y :: t else y :: insertDesc x t

/-- Python `sorted(w.items(), key=lambda kv: kv[1], reverse=True)` (stable). -/
def sortDesc (l : AList) : AList := l.foldr insertDesc []

/-- Round a rational to the nearest integer, ties to even — the behaviour of
Python's built-in `round` on exact values. -/
def rhe (q : ℚ) : ℤ :=
  if q < (⌊q⌋ : ℚ) + 1 / 2 then ⌊q⌋
  else if (⌊q⌋ : ℚ) + 1 / 2 < q then ⌊q⌋ + 1
  else if Even ⌊q⌋ then ⌊q⌋ else ⌊q⌋ + 1

/-- Python `round(x, 2)` on the rational model. -/
def round2 (q : ℚ) : ℚ := (rhe (q * 100) : ℚ) / 100

/-- A rational that is a whole number of cents (the 2-decimal currency grid). -/
def isCent (q : ℚ) : Prop := (q * 100).den = 1

instance (q : ℚ) : Decidable (isCent q) := by unfold isCent; infer_instance

theorem isCent_iff (q : ℚ) : isCent q ↔ ∃ n : ℤ, q = (n : ℚ) / 100 := by
  constructor
  · intro h
    refine ⟨(q * 100).num, ?_⟩
    have h1 : ((q * 100).num : ℚ) = q * 100 := Rat.den_eq_one_iff _ |>.mp h
    field_simp [h1]
  · rintro ⟨n, rfl⟩
    have : (n : ℚ) / 100 * 100 = (n : ℚ) := by field_simp
    simp [isCent, this]

theorem rhe_intCast (n : ℤ) : rhe (n : ℚ) = n := by
  unfold rhe
  simp [Int.floor_intCast]

theorem round2_cent (n : ℤ) : round2 ((n : ℚ) / 100) = (n : ℚ) / 100 := by
  unfold round2
  have h : (n : ℚ) / 100 * 100 = (n : ℚ) := by field_simp
  rw [h, rhe_intCast]

theorem round2_isCent (q : ℚ) : isCent (round2 q) := by
  rw [isCent_iff]
  exact ⟨rhe (q * 100), rfl⟩

theorem isCent_of_eq_cast (n : ℤ) : isCent ((n : ℚ) / 100) := by
  rw [isCent_iff]; exact ⟨n, rfl⟩

theorem isCent_add {a b : ℚ} (ha : isCent a) (hb : isCent b) : isCent (a + b) := by
  rw [isCent_iff] at ha hb ⊢
  obtain ⟨n, rfl⟩ := ha
  obtain ⟨m, rfl⟩ := hb
  exact ⟨n + m, by push_cast; ring⟩

theorem isCent_neg {a : ℚ} (ha : isCent a) : isCent (-a) := by
  rw [isCent_iff] at ha ⊢
  obtain ⟨n, rfl⟩ := ha
  exact ⟨-n, by push_cast; ring⟩

theorem isCent_sub {a b : ℚ} (ha : isCent a) (hb : isCent b) : isCent (a - b) := by
  rw [sub_eq_add_neg]; exact isCent_add ha (isCent_neg hb)

theorem isCent_zero : isCent 0 := by rw [isCent_iff]; exact ⟨0, by norm_num⟩

theorem isCent_sum (l : List ℚ) (h : ∀ x ∈ l, isCent x) : isCent l.sum := by
  induction l with
  | nil => simpa using isCent_zero
  | cons a t ih =>
      simp only [List.sum_cons]
      exact isCent_add (h a (by simp)) (ih (fun x hx => h x (by simp [hx])))

theorem round2_of_isCent {q : ℚ} (h : isCent q) : round2 q = q := by
  rw [isCent_iff] at h
  obtain ⟨n, rfl⟩ := h
  exact round2_cent n

/-- A cent amount whose absolute value is below `0.01 - 1e-9` is zero. -/
theorem isCent_small_eq_zero {q : ℚ} (h : isCent q)
    (hlt : ¬ (1 / 100 - 1 / 10 ^ 9 ≤ |q|)) : q = 0 := by
  rw [isCent_iff] at h
  obtain ⟨n, rfl⟩ := h
  push_neg at hlt
  have habs : |(n : ℚ) / 100| = ((|n| : ℤ) : ℚ) / 100 := by
    rw [abs_div, Int.cast_abs]
    norm_num
  rw [habs] at hlt
  have hn : ((|n| : ℤ) : ℚ) < 1 := by linarith
  have hn' : |n| < 1 := by exact_mod_cast hn
  have hz : n = 0 := by
    rcases abs_lt.mp hn' with ⟨h1, h2⟩
    omega
  simp [hz]

/-! ### Allocation engine (payouts_from_royalties.py) -/

/-- Policy tags appended to `policies_applied` (typed instead of formatted
strings; the tag payload carries the configured cap value). -/
inductive PTag
  | excluded
  | capTop1 (c : ℚ)
  | capTop3 (c : ℚ)
  | minAmount
deriving DecidableEq, Repr

/-- `defaultdict(list)` used for per-provider policy tags. -/
abbrev PList := List (String × List PTag)

/-- `policies[k]` with the defaultdict default `[]`. -/
def pGet (ps : PList) (k : String) : List PTag := (ps.lookup k).getD []

/-- `policies[k].append(t)` on a `defaultdict(list)`. -/
def pAppend : PList → String → PTag → PList
  | [], k, t => [(k, [t])]
  | (k', l) :: tl, k, t =>
      if k' = k then (k', l ++ [t]) :: tl else (k', l) :: pAppend tl k t

/-- `normalize_weights`: rescale positive weights to sum to 1; non-positive
weights map to 0; if no positive weight exists, everything maps to 0. -/
def normalize_weights (w : AList) : AList :=
  let tot := (pfilter (fun v => 0 < v) (w.map Prod.snd)).sum
  if tot ≤ 0 then w.map (fun kv => (kv.1, (0 : ℚ)))
  else w.map (fun kv => (kv.1, if 0 < kv.2 then kv.2 / tot else 0))

/-- `apply_exclusions`: zero out each excluded provider present with positive
weight, tag it `excluded`, then renormalize. -/
def apply_exclusions (w : AList) (excl : List String) (policies : PList) :
    AList × PList :=
  let st := excl.foldl
    (fun (st : AList × PList) p =>
      match st.1.lookup p with
      | some v =>
          if 0 < v then (setFirst st.1 p 0, pAppend st.2 p .excluded) else st
      | none => st)
    (w, policies)
  (normalize_weights st.1, st.2)

/-- `redistribute` (inner helper of `apply_caps`): subtract the stated excess
from the given providers and redistribute its total pro-rata over the
non-capped providers with positive weight; if none is free, renormalize over
all positive providers (degenerate edge case). -/
def redistribute (excess_from : AList) (capped : List String) (w : AList) :
    AList :=
  let w1 := excess_from.foldl
    (fun acc ke => setFirst acc ke.1 (getD acc ke.1 - ke.2)) w
  let free := pfilter (fun kv => kv.1 ∉ capped ∧ 0 < kv.2) w1
  let tot_free := (free.map Prod.snd).sum
  if tot_free ≤ 0 then
    let pos := pfilter (fun kv => 0 < kv.2) w1
    let tot_pos := (pos.map Prod.snd).sum
    if 0 < tot_pos then
      w1.map (fun kv => if 0 < kv.2 then (kv.1, kv.2 / tot_pos) else kv)
    else w1
  else
    let inc_total := (excess_from.map Prod.snd).sum
    w1.map (fun kv =>
      if kv.1 ∉ capped ∧ 0 < kv.2 then
        (kv.1, kv.2 + kv.2 / tot_free * inc_total)
      else kv)

/-- Mutable state of the `apply_caps` loop: current weights, the frozen
(`capped`) provider set and the policy-tag map. -/
structure CapSt where
  w : AList
  capped : List String
  ps : PList
deriving DecidableEq, Repr

/-- Python `set.add`. -/
def addKey (capped : List String) (k : String) : List String :=
  if k ∈ capped then capped else k :: capped

/-- One round of the `apply_caps` loop: the top-1 cap check followed by the
top-3 cap check on the updated state; returns the new state and the `changed`
flag. -/
def capRound (cap_top1 cap_top3 : Option ℚ) (st : CapSt) : CapSt × Bool :=
  let r1 : CapSt × Bool :=
    match cap_top1 with
    | none => (st, false)
    | some c1 =>
        match pyMax st.w with
        | none => (st, false)
        | some (k, v) =>
            if c1 + EPS < v then
              let ex := v - c1
              let capped := addKey st.capped k
              let ps := pAppend st.ps k (.capTop1 c1)
              ({ w := redistribute [(k, ex)] capped st.w, capped, ps }, true)
            else (st, false)
  let st1 := r1.1
  let r3 : CapSt × Bool :=
    match cap_top3 with
    | none => (st1, false)
    | some c3 =>
        if 3 ≤ st1.w.length then
          let top3 := (sortDesc st1.w).take 3
          let sum_top3 := (top3.map Prod.snd).sum
          if c3 + EPS < sum_top3 then
            let excess := sum_top3 - c3
            let capped := top3.foldl (fun c kv => addKey c kv.1) st1.capped
            let ps := top3.foldl
              (fun a kv =>
                if PTag.capTop3 c3 ∈ pGet a kv.1 then a
                else pAppend a kv.1 (.capTop3 c3))
              st1.ps
            let top3_total := sum_top3
            let ex_map := top3.map
              (fun kv => (kv.1, getD st1.w kv.1 / top3_total * excess))
            ({ w := redistribute ex_map capped st1.w, capped, ps }, true)
          else (st1, false)
        else (st1, false)
  (r3.1, r1.2 || r3.2)

/-- The bounded loop of `apply_caps` (`for _ in range(10)`): stop early if a
round made no change, otherwise renormalize and continue. -/
def capLoop : Nat → Option ℚ → Option ℚ → CapSt → CapSt
  | 0, _, _, st => st
  | n + 1, c1, c3, st =>
      let r := capRound c1 c3 st
      if r.2 then capLoop n c1 c3 { r.1 with w := normalize_weights r.1.w }
      else r.1

/-- `apply_caps`: freeze capped providers and redistribute the excess, at most
10 rounds. -/
def apply_caps (w : AList) (cap_top1 cap_top3 : Option ℚ) (policies : PList) :
    AList × PList :=
  if w = [] then (w, policies)
  else
    let st := capLoop 10 cap_top1 cap_top3 ⟨w, [], policies⟩
    (st.w, st.ps)

/-- The shared residual-correction move: round the residual
`target - sum(amounts)` to 2 decimals and, if at least one cent, add it whole
to the provider with the largest amount. Appears twice in the source: at the
end of `round_amounts` and after min-amount reconciliation in `main`. -/
def reconcile_cent (l : AList) (target : ℚ) : AList :=
  let diff := round2 (target - sumVals l)
  if 1 / 100 - 1 / 10 ^ 9 ≤ |diff| then
    match pyMax l with
    | some (p, v) => setFirst l p (round2 (v + diff))
    | none => l
  else l

/-- `round_amounts`: multiply weights by the budget, round per provider to 2
decimals with a `1e-12` bias, then reconcile the residual onto the largest
amount. -/
def round_amounts (weights : AList) (eur_total : ℚ) : AList :=
  let raw := weights.map (fun kv => (kv.1, kv.2 * eur_total))
  let rounded := raw.map (fun kv => (kv.1, round2 (kv.2 + 1 / 10 ^ 12)))
  reconcile_cent rounded eur_total

/-- The rollover rows `(provider, amount)` removed by the min-amount policy. -/
def minRollover (amounts : AList) (min_amount : ℚ) : AList :=
  pfilter (fun kv => 0 < kv.2 ∧ kv.2 < min_amount) amounts

/-- Total amount removed by the min-amount policy. -/
def minRemoved (amounts : AList) (min_amount : ℚ) : ℚ :=
  sumVals (minRollover amounts min_amount)

/-- Amounts after zeroing the sub-threshold providers. -/
def minZeroed (amounts : AList) (min_amount : ℚ) : AList :=
  amounts.map (fun kv =>
    if 0 < kv.2 ∧ kv.2 < min_amount then (kv.1, (0 : ℚ)) else kv)

/-- Sum of the surviving (positive) amounts after zeroing. -/
def minSurvTot (amounts : AList) (min_amount : ℚ) : ℚ :=
  sumVals (pfilter (fun kv => 0 < kv.2) (minZeroed amounts min_amount))

/-- The min-amount threshold step of `main`: zero providers with
`0 < amount < min_amount` (tagging them `min_amount`), and — when
`--reconcile-after-min` is set and something was removed — redistribute the
removed total pro-rata over the surviving providers and re-run the residual
correction. -/
def minStep (amounts : AList) (min_amount : ℚ) (reconcile_after_min : Bool)
    (eur_total : ℚ) (policies : PList) : AList × PList :=
  if 0 < min_amount then
    let rollover := minRollover amounts min_amount
    let ps := rollover.foldl (fun a kv => pAppend a kv.1 .minAmount) policies
    let amounts1 := minZeroed amounts min_amount
    let removed_total := sumVals rollover
    if reconcile_after_min ∧ 0 < removed_total then
      let tot_surv := minSurvTot amounts min_amount
      if 0 < tot_surv then
        let amounts2 := amounts1.map (fun kv =>
          if 0 < kv.2 then
            (kv.1, round2 (kv.2 + kv.2 / tot_surv * removed_total))
          else kv)
        (reconcile_cent amounts2 eur_total, ps)
      else (amounts1, ps)
    else (amounts1, ps)
  else (amounts, policies)

/-- The `PolicySet` of one settlement run. -/
structure Policy where
  exclusions : List String := []
  cap_top1 : Option ℚ := none
  cap_top3 : Option ℚ := none
  min_amount : ℚ := 0
  reconcile_after_min : Bool := false

/-- Weights after the normalize / exclusions / caps stages of `main`. -/
def cappedWeights (S : AList) (pol : Policy) : AList × PList :=
  let w := normalize_weights S
  let st : AList × PList :=
    if pol.exclusions ≠ [] then apply_exclusions w pol.exclusions []
    else (w, [])
  if pol.cap_top1 ≠ none ∨ pol.cap_top3 ≠ none then
    apply_caps st.1 pol.cap_top1 pol.cap_top3 st.2
  else st

/-- Rounded per-provider amounts before the min-amount policy. -/
def preMinAmounts (S : AList) (eur_total : ℚ) (pol : Policy) : AList :=
  round_amounts (cappedWeights S pol).1 eur_total

/-- The allocation engine: `allocate(weights, budget, policy)` as composed in
`main` (normalize → exclusions → caps → round & reconcile → min-amount). -/
def allocate (S : AList) (eur_total : ℚ) (pol : Policy) : AList :=
  (minStep (preMinAmounts S eur_total pol) pol.min_amount
    pol.reconcile_after_min eur_total (cappedWeights S pol).2).1

/-! ### Structural lemmas about the dict model -/

theorem keys_map (l : AList) (f : String × ℚ → String × ℚ)
    (h : ∀ kv, (f kv).1 = kv.1) : keys (l.map f) = keys l := by
  induction l with
  | nil => rfl
  | cons a t ih => simp [keys, h a] at ih ⊢; exact ih

theorem keys_map_pair (l : AList) (g : String × ℚ → ℚ) :
    keys (l.map (fun kv => (kv.1, g kv))) = keys l :=
  keys_map l _ (fun _ => rfl)

theorem keys_map_ite (l : AList) (p : String × ℚ → Prop) [DecidablePred p]
    (g : String × ℚ → ℚ) :
    keys (l.map (fun kv => if p kv then (kv.1, g kv) else kv)) = keys l :=
  keys_map l _ (fun kv => by by_cases hp : p kv <;> simp [hp])

theorem keys_setFirst (l : AList) (k : String) (v : ℚ) :
    keys (setFirst l k v) = keys l := by
  induction l with
  | nil => rfl
  | cons a t ih =>
      by_cases h : a.1 = k <;> simp [setFirst, keys, h] at ih ⊢ <;> exact ih

theorem keys_normalize (w : AList) : keys (normalize_weights w) = keys w := by
  unfold normalize_weights
  dsimp only
  split
  · exact keys_map_pair w _
  · exact keys_map_pair w _

theorem keys_foldl_setFirst (ex : AList) (w : AList)
    (f : AList → String × ℚ → ℚ) :
    keys (ex.foldl (fun acc ke => setFirst acc ke.1 (f acc ke)) w) = keys w := by
  induction ex generalizing w with
  | nil => rfl
  | cons a t ih => simp only [List.foldl_cons]; rw [ih, keys_setFirst]

theorem keys_redistribute (ex : AList) (capped : List String) (w : AList) :
    keys (redistribute ex capped w) = keys w := by
  unfold redistribute
  dsimp only
  split
  · split
    · rw [keys_map_ite]
      exact keys_foldl_setFirst ex w _
    · exact keys_foldl_setFirst ex w _
  · rw [keys_map_ite]
    exact keys_foldl_setFirst ex w _

theorem keys_capRound (c1 c3 : Option ℚ) (st : CapSt) :
    keys (capRound c1 c3 st).1.w = keys st.w := by
  unfold capRound
  dsimp only
  repeat' split
  all_goals simp [keys_redistribute]

theorem keys_capLoop (n : Nat) (c1 c3 : Option ℚ) (st : CapSt) :
    keys (capLoop n c1 c3 st).w = keys st.w := by
  induction n generalizing st with
  | zero => rfl
  | succ m ih =>
      unfold capLoop
      dsimp only
      split
      · rw [ih]; dsimp only; rw [keys_normalize, keys_capRound]
      · rw [keys_capRound]

theorem keys_apply_caps (w : AList) (c1 c3 : Option ℚ) (ps : PList) :
    keys (apply_caps w c1 c3 ps).1 = keys w := by
  unfold apply_caps
  split
  · rfl
  · exact keys_capLoop 10 c1 c3 _

theorem keys_exclFold (t : List String) (w : AList) (ps : PList) :
    keys (t.foldl
      (fun (st : AList × PList) p =>
        match st.1.lookup p with
        | some v =>
            if 0 < v then (setFirst st.1 p 0, pAppend st.2 p .excluded) else st
        | none => st)
      (w, ps)).1 = keys w := by
  induction t generalizing w ps with
  | nil => rfl
  | cons a t ih =>
      simp only [List.foldl_cons]
      rcases h : w.lookup a with _ | v
      · simp only [h]; exact ih w ps
      · simp only [h]
        split
        · rw [ih]; exact keys_setFirst w a 0
        · exact ih w ps

theorem keys_apply_exclusions (w : AList) (excl : List String) (ps : PList) :
    keys (apply_exclusions w excl ps).1 = keys w := by
  unfold apply_exclusions
  dsimp only
  rw [keys_normalize]
  exact keys_exclFold excl w ps

theorem keys_reconcile_cent (l : AList) (t : ℚ) :
    keys (reconcile_cent l t) = keys l := by
  unfold reconcile_cent
  dsimp only
  repeat' split
  all_goals simp [keys_setFirst]

theorem keys_round_amounts (w : AList) (B : ℚ) :
    keys (round_amounts w B) = keys w := by
  unfold round_amounts
  dsimp only
  rw [keys_reconcile_cent, keys_map_pair, keys_map_pair]

theorem keys_minZeroed (a : AList) (m : ℚ) : keys (minZeroed a m) = keys a :=
  keys_map_ite a _ _

theorem keys_minStep (a : AList) (m : ℚ) (rec : Bool) (B : ℚ) (ps : PList) :
    keys (minStep a m rec B ps).1 = keys a := by
  unfold minStep
  dsimp only
  split
  · split
    · split
      · rw [keys_reconcile_cent, keys_map_ite, keys_minZeroed]
      · exact keys_minZeroed a m
    · exact keys_minZeroed a m
  · rfl

theorem keys_cappedWeights (S : AList) (pol : Policy) :
    keys (cappedWeights S pol).1 = keys S := by
  unfold cappedWeights
  dsimp only
  split
  · split
    · rw [keys_apply_caps, keys_apply_exclusions, keys_normalize]
    · rw [keys_apply_caps, keys_normalize]
  · split
    · rw [keys_apply_exclusions, keys_normalize]
    · rw [keys_normalize]

theorem keys_allocate (S : AList) (B : ℚ) (pol : Policy) :
    keys (allocate S B pol) = keys S := by
  unfold allocate preMinAmounts
  rw [keys_minStep, keys_round_amounts, keys_cappedWeights]

/-! ### Lookup, maximum and sum lemmas -/

theorem sum_setFirst (l : AList) (k : String) (v x : ℚ)
    (h : l.lookup k = some v) :
    sumVals (setFirst l k x) = sumVals l - v + x := by
  induction l with
  | nil => simp [List.lookup] at h
  | cons a t ih =>
      by_cases hk : a.1 = k
      · have hb : (k == a.1) = true := by simp [hk]
        simp only [List.lookup, hb] at h
        injection h with h
        simp [setFirst, hk, sumVals, h]
        ring
      · have hb : (k == a.1) = false := by simp; exact fun hh => hk hh.symm
        simp only [List.lookup, hb] at h
        simp only [setFirst, if_neg hk, sumVals, List.map_cons, List.sum_cons]
        have := ih h
        simp only [sumVals] at this
        rw [this]
        ring

/-- The running best of Python `max` is the initial item or a list element. -/
theorem foldMax_mem (t : AList) (b : String × ℚ) :
    t.foldl (fun best x => if best.2 < x.2 then x else best) b ∈ b :: t := by
  induction t generalizing b with
  | nil => simp
  | cons c u ih =>
      simp only [List.foldl_cons]
      rcases (List.mem_cons).mp (ih (if b.2 < c.2 then c else b)) with h | h
      · rw [h]
        split
        · simp
        · simp
      · simp [h]

/-- The running best of Python `max` bounds the initial item and every list
element. -/
theorem foldMax_ge (t : AList) (b : String × ℚ) :
    b.2 ≤ (t.foldl (fun best x => if best.2 < x.2 then x else best) b).2 ∧
    ∀ x ∈ t, x.2 ≤ (t.foldl (fun best x => if best.2 < x.2 then x else best) b).2 := by
  induction t generalizing b with
  | nil => simp
  | cons c u ih =>
      simp only [List.foldl_cons]
      obtain ⟨h1, h2⟩ := ih (if b.2 < c.2 then c else b)
      have hb : b.2 ≤ (if b.2 < c.2 then c else b).2 := by
        split
        · next h => exact le_of_lt h
        · exact le_refl _
      have hc : c.2 ≤ (if b.2 < c.2 then c else b).2 := by
        split
        · exact le_refl _
        · next h => exact le_of_not_lt h
      refine ⟨le_trans hb h1, ?_⟩
      intro x hx
      rcases (List.mem_cons).mp hx with h | h
      · rw [h]; exact le_trans hc h1
      · exact h2 x h

theorem pyMax_mem (l : AList) (kv : String × ℚ) (h : pyMax l = some kv) :
    kv ∈ l := by
  match l with
  | [] => simp [pyMax] at h
  | a :: t =>
      simp only [pyMax, Option.some.injEq] at h
      subst h
      exact foldMax_mem t a

theorem pyMax_ge (l : AList) (kv : String × ℚ) (h : pyMax l = some kv) :
    ∀ x ∈ l, x.2 ≤ kv.2 := by
  match l with
  | [] => simp [pyMax] at h
  | a :: t =>
      simp only [pyMax, Option.some.injEq] at h
      subst h
      intro x hx
      rcases (List.mem_cons).mp hx with h | h
      · rw [h]; exact (foldMax_ge t a).1
      · exact (foldMax_ge t a).2 x h

theorem pyMax_isSome (l : AList) (h : l ≠ []) : ∃ kv, pyMax l = some kv := by
  match l with
  | [] => exact absurd rfl h
  | a :: t => exact ⟨_, rfl⟩

/-- In a dict with distinct keys, membership determines the lookup. -/
theorem lookup_of_mem_nodup (l : AList) (k : String) (v : ℚ)
    (hnd : (keys l).Nodup) (hm : (k, v) ∈ l) : l.lookup k = some v := by
  induction l with
  | nil => simp at hm
  | cons a t ih =>
      simp only [keys, List.map_cons, List.nodup_cons] at hnd
      rcases (List.mem_cons).mp hm with h | h
      · rw [← h]
        simp [List.lookup]
      · have hk : a.1 ≠ k := by
          intro he
          exact hnd.1 (by
            rw [he]
            exact List.mem_map_of_mem Prod.fst h)
        have hb : (k == a.1) = false := by
          simp only [beq_eq_false_iff_ne, ne_eq]
          exact fun hh => hk hh.symm
        simp only [List.lookup, hb]
        exact ih hnd.2 h

/-! ### Conservation of the rounding / reconciliation steps -/

/-- All values of a dict lie on the cent grid. -/
def valsCent (l : AList) : Prop := ∀ kv ∈ l, isCent kv.2

theorem sumVals_isCent {l : AList} (h : valsCent l) : isCent (sumVals l) := by
  unfold sumVals
  apply isCent_sum
  intro x hx
  obtain ⟨kv, hkv, rfl⟩ := List.mem_map.mp hx
  exact h kv hkv

theorem mem_setFirst {l : AList} {k : String} {x : ℚ} {kv : String × ℚ}
    (h : kv ∈ setFirst l k x) : kv.2 = x ∨ kv ∈ l := by
  induction l with
  | nil => simp [setFirst] at h
  | cons a t ih =>
      unfold setFirst at h
      split at h
      · rcases (List.mem_cons).mp h with hh | hh
        · left; rw [hh]
        · right; simp [hh]
      · rcases (List.mem_cons).mp h with hh | hh
        · right; simp [hh]
        · rcases ih hh with h2 | h2
          · left; exact h2
          · right; simp [h2]

theorem valsCent_setFirst {l : AList} {k : String} {x : ℚ}
    (h : valsCent l) (hx : isCent x) : valsCent (setFirst l k x) := by
  intro kv hkv
  rcases mem_setFirst hkv with hh | hh
  · rw [hh]; exact hx
  · exact h kv hh

theorem ne_nil_of_keys {l : AList} (h : keys l ≠ []) : l ≠ [] := by
  intro he
  rw [he] at h
  exact h rfl

/-- Conservation of the shared residual-correction move: if the dict is
non-empty with distinct keys, every amount is a whole number of cents and the
target is a whole number of cents, the corrected amounts sum exactly to the
target. -/
theorem reconcile_cent_sum (l : AList) (target : ℚ) (hl : l ≠ [])
    (hnd : (keys l).Nodup) (hv : valsCent l) (ht : isCent target) :
    sumVals (reconcile_cent l target) = target := by
  unfold reconcile_cent
  dsimp only
  have hsl : isCent (sumVals l) := sumVals_isCent hv
  have hd0 : isCent (target - sumVals l) := isCent_sub ht hsl
  have hdiff : round2 (target - sumVals l) = target - sumVals l :=
    round2_of_isCent hd0
  split
  · rcases h : pyMax l with _ | ⟨p, v⟩
    · obtain ⟨kv, hk⟩ := pyMax_isSome l hl
      rw [h] at hk
      cases hk
    · have hm : (p, v) ∈ l := pyMax_mem l _ h
      have hlk : l.lookup p = some v := lookup_of_mem_nodup l p v hnd hm
      rw [sum_setFirst l p v _ hlk]
      have hvc : isCent v := hv _ hm
      have : round2 (v + round2 (target - sumVals l)) =
          v + round2 (target - sumVals l) := by
        apply round2_of_isCent
        rw [hdiff]
        exact isCent_add hvc hd0
      rw [this, hdiff]
      ring
  · next hsmall =>
      have : target - sumVals l = 0 := by
        apply isCent_small_eq_zero hd0
        rw [← hdiff]
        exact hsmall
      linarith

theorem valsCent_reconcile_cent {l : AList} (t : ℚ) (hv : valsCent l) :
    valsCent (reconcile_cent l t) := by
  unfold reconcile_cent
  dsimp only
  split
  · rcases h : pyMax l with _ | ⟨p, v⟩
    · exact hv
    · exact valsCent_setFirst hv (round2_isCent _)
  · exact hv

/-- The per-provider rounded amounts of `round_amounts` before correction. -/
theorem valsCent_rounded (w : AList) (B : ℚ) :
    valsCent ((w.map (fun kv => (kv.1, kv.2 * B))).map
      (fun kv => (kv.1, round2 (kv.2 + 1 / 10 ^ 12)))) := by
  intro kv hkv
  obtain ⟨kv2, _, rfl⟩ := List.mem_map.mp hkv
  exact round2_isCent _

/-- Conservation of `round_amounts`: for a non-empty weight dict with distinct
keys and a budget on the cent grid, the rounded-and-reconciled amounts sum
exactly to the budget — for arbitrary weights. -/
theorem round_amounts_sum (w : AList) (B : ℚ) (hw : w ≠ [])
    (hnd : (keys w).Nodup) (hB : isCent B) :
    sumVals (round_amounts w B) = B := by
  unfold round_amounts
  dsimp only
  apply reconcile_cent_sum _ _ _ _ (valsCent_rounded w B) hB
  · simp [List.map_eq_nil_iff, hw]
  · rw [keys_map_pair, keys_map_pair]
    exact hnd

theorem valsCent_round_amounts (w : AList) (B : ℚ) :
    valsCent (round_amounts w B) := by
  unfold round_amounts
  dsimp only
  exact valsCent_reconcile_cent _ (valsCent_rounded w B)

/-- Zeroing the sub-threshold providers removes exactly the rollover total. -/
theorem minZeroed_sum (a : AList) (m : ℚ) :
    sumVals (minZeroed a m) = sumVals a - minRemoved a m := by
  induction a with
  | nil => simp [minZeroed, minRemoved, minRollover, sumVals, pfilter]
  | cons kv t ih =>
      by_cases h : 0 < kv.2 ∧ kv.2 < m
      · simp only [minZeroed, List.map_cons, if_pos h, minRemoved, minRollover,
          pfilter, sumVals, List.map_cons, List.sum_cons] at ih ⊢
        rw [ih]
        ring
      · simp only [minZeroed, List.map_cons, if_neg h, minRemoved, minRollover,
          pfilter, sumVals, List.map_cons, List.sum_cons] at ih ⊢
        rw [ih]
        ring

theorem minRemoved_nonneg (a : AList) (m : ℚ) : 0 ≤ minRemoved a m := by
  unfold minRemoved minRollover
  induction a with
  | nil => simp [sumVals, pfilter]
  | cons kv t ih =>
      unfold pfilter
      split
      · next h =>
          simp only [sumVals, List.map_cons, List.sum_cons]
          have := h.1
          unfold sumVals at ih
          linarith
      · exact ih

theorem valsCent_minZeroed {a : AList} (m : ℚ) (hv : valsCent a) :
    valsCent (minZeroed a m) := by
  intro kv hkv
  obtain ⟨kv2, hkv2, he⟩ := List.mem_map.mp hkv
  by_cases h : 0 < kv2.2 ∧ kv2.2 < m
  · rw [if_pos h] at he
    rw [← he]
    exact isCent_zero
  · rw [if_neg h] at he
    rw [← he]
    exact hv kv2 hkv2

/-- Conservation of the min-amount step under the precise condition: the
policy is off, or reconciliation is on and either nothing was removed or some
provider survives the filter. -/
theorem minStep_sum (a : AList) (m : ℚ) (rec : Bool) (B : ℚ) (ps : PList)
    (ha : a ≠ []) (hnd : (keys a).Nodup) (hv : valsCent a) (hB : isCent B)
    (hsum : sumVals a = B)
    (hcond : m ≤ 0 ∨ (rec = true ∧
      (minRemoved a m = 0 ∨ 0 < minSurvTot a m))) :
    sumVals (minStep a m rec B ps).1 = B := by
  unfold minStep
  dsimp only
  split
  · next hm =>
      have hrec : rec = true ∧ (minRemoved a m = 0 ∨ 0 < minSurvTot a m) := by
        rcases hcond with hc | hc
        · exact absurd hm (by linarith)
        · exact hc
      split
      · next hbr =>
          have hrm : 0 < sumVals (minRollover a m) := hbr.2
          have hsurv : 0 < minSurvTot a m := by
            rcases hrec.2 with h0 | h0
            · exact absurd h0 (by
                unfold minRemoved at h0 ⊢
                intro he
                rw [he] at hrm
                exact lt_irrefl 0 hrm)
            · exact h0
          rw [if_pos hsurv]
          apply reconcile_cent_sum _ _ _ _ _ hB
          · apply ne_nil_of_keys
            rw [keys_map_ite, keys_minZeroed]
            intro he
            exact ha (by
              have : keys a = [] := he
              unfold keys at this
              exact List.map_eq_nil_iff.mp this)
          · rw [keys_map_ite, keys_minZeroed]
            exact hnd
          · intro kv hkv
            obtain ⟨kv2, hkv2, he⟩ := List.mem_map.mp hkv
            by_cases hc : 0 < kv2.2
            · rw [if_pos hc] at he
              rw [← he]
              exact round2_isCent _
            · rw [if_neg hc] at he
              rw [← he]
              exact valsCent_minZeroed m hv kv2 hkv2
      · next hbr =>
          have h0 : minRemoved a m = 0 := by
            have hle : ¬ (0 < minRemoved a m) := by
              intro hpos
              exact hbr ⟨hrec.1, by unfold minRemoved at hpos; exact hpos⟩
            have := minRemoved_nonneg a m
            linarith
          rw [minZeroed_sum, h0, hsum]
          ring
  · exact hsum

/-- End-to-end conservation of the allocation engine under the precise
min-amount condition. -/
theorem allocate_sum (S : AList) (B : ℚ) (pol : Policy)
    (hS : S ≠ []) (hnd : (keys S).Nodup) (hB : isCent B)
    (hmin : pol.min_amount ≤ 0 ∨ (pol.reconcile_after_min = true ∧
      (minRemoved (preMinAmounts S B pol) pol.min_amount = 0 ∨
       0 < minSurvTot (preMinAmounts S B pol) pol.min_amount))) :
    sumVals (allocate S B pol) = B := by
  unfold allocate
  have hkeysC : keys (cappedWeights S pol).1 = keys S := keys_cappedWeights S pol
  have hkeysP : keys (preMinAmounts S B pol) = keys S := by
    unfold preMinAmounts
    rw [keys_round_amounts, hkeysC]
  apply minStep_sum _ _ _ _ _ _ _ _ hB _ hmin
  · apply ne_nil_of_keys
    rw [hkeysP]
    intro he
    exact hS (List.map_eq_nil_iff.mp he)
  · rw [hkeysP]; exact hnd
  · exact valsCent_round_amounts _ B
  · unfold preMinAmounts
    apply round_amounts_sum _ _ _ _ hB
    · apply ne_nil_of_keys
      rw [hkeysC]
      intro he
      exact hS (List.map_eq_nil_iff.mp he)
    · rw [hkeysC]; exact hnd

/-! ### The cap invariant at a converged round -/

theorem pyMax_eq_none {l : AList} (h : pyMax l = none) : l = [] := by
  match l with
  | [] => rfl
  | a :: t => simp [pyMax] at h

/-- If a `capRound` reports no change and `cap_top1` is configured, every
weight is at most `cap_top1 + EPS`. -/
theorem capRound_false_top1 (c : ℚ) (c3 : Option ℚ) (st : CapSt)
    (h : (capRound (some c) c3 st).2 = false) :
    ∀ kv ∈ st.w, kv.2 ≤ c + EPS := by
  unfold capRound at h
  dsimp only at h
  rcases hm : pyMax st.w with _ | ⟨k, v⟩
  · intro kv hkv
    rw [pyMax_eq_none hm] at hkv
    simp at hkv
  · rw [hm] at h
    dsimp only at h
    split at h
    · simp at h
    · next hc =>
        intro kv hkv
        have hv : kv.2 ≤ v := pyMax_ge st.w (k, v) hm kv hkv
        have : ¬ (c + EPS < v) := hc
        linarith [not_lt.mp this]

/-- If a `capRound` reports no change, `cap_top3` is configured and there are
at least three providers, the three largest weights sum to at most
`cap_top3 + EPS`. -/
theorem capRound_false_top3 (c1 : Option ℚ) (c : ℚ) (st : CapSt)
    (h : (capRound c1 (some c) st).2 = false) (hlen : 3 ≤ st.w.length) :
    (((sortDesc st.w).take 3).map Prod.snd).sum ≤ c + EPS := by
  unfold capRound at h
  dsimp only at h
  rcases c1 with _ | c1v
  · dsimp only at h
    rw [if_pos hlen] at h
    split at h
    · simp at h
    · next hc => linarith [not_lt.mp hc]
  · dsimp only at h
    rcases hm : pyMax st.w with _ | ⟨k, v⟩
    · rw [hm] at h
      dsimp only at h
      rw [if_pos hlen] at h
      split at h
      · simp at h
      · next hc => linarith [not_lt.mp hc]
    · rw [hm] at h
      dsimp only at h
      split at h
      · simp at h
      · dsimp only at h
        split at h
        · simp at h
        · next hc => linarith [not_lt.mp hc]

/-! ### Claim C1: conservation of the allocation engine -/

/-- C1 counterexample: the claim asserts conservation for all policy
configurations "including minimum-amount filtering both with and without
reconcile_after_min", but with `min_amount = 200`, no reconciliation, weights
`{A: 1}` and budget `100.00` the engine zeroes A's `100.00` (it is below the
threshold) and returns a total of `0`, not the budget. -/
theorem claim_C1_counterexample :
    sumVals (allocate [("A", 1)] 100
      { min_amount := 200, reconcile_after_min := false }) = 0 ∧
    (0 : ℚ) ≠ 100 := by
  constructor
  · norm_num +decide [allocate, preMinAmounts, cappedWeights, minStep,
      round_amounts, reconcile_cent, normalize_weights, sumVals, round2, rhe,
      pyMax, pfilter, minRollover, minZeroed, minSurvTot, pAppend, setFirst,
      getD]
  · norm_num

/-- C1 (amended): conservation holds for every non-empty weight dict (with
distinct keys, as in a Python dict) and every budget on the cent grid, for all
exclusion and cap configurations, provided minimum-amount filtering is either
disabled, or `reconcile_after_min` is set and (nothing is removed, or at least
one provider survives the filter): then the allocated amounts sum exactly to
the budget. -/
theorem claim_C1_conservation_amended (S : AList) (B : ℚ) (pol : Policy)
    (hS : S ≠ []) (hnd : (keys S).Nodup) (hB : isCent B)
    (hmin : pol.min_amount ≤ 0 ∨ (pol.reconcile_after_min = true ∧
      (minRemoved (preMinAmounts S B pol) pol.min_amount = 0 ∨
       0 < minSurvTot (preMinAmounts S B pol) pol.min_amount))) :
    sumVals (allocate S B pol) = B :=
  allocate_sum S B pol hS hnd hB hmin

/-- Witness for C1 (amended) at weights `{A: 0.6, B: 0.4}`, budget `100`,
`min_amount = 50` with reconciliation: B's `40.00` is rolled over onto A and
the total is still exactly `100`. -/
theorem claim_C1_conservation_amended_witness :
    ([("A", (3 : ℚ)/5), ("B", 2/5)] : AList) ≠ [] ∧
    (keys [("A", (3 : ℚ)/5), ("B", 2/5)]).Nodup ∧
    isCent (100 : ℚ) ∧
    (0 : ℚ) < minSurvTot (preMinAmounts [("A", (3 : ℚ)/5), ("B", 2/5)] 100
      ⟨[], none, none, 50, true⟩) 50 ∧
    sumVals (allocate [("A", (3 : ℚ)/5), ("B", 2/5)] 100
      ⟨[], none, none, 50, true⟩) = 100 := by
  have h1 : ([("A", (3 : ℚ)/5), ("B", 2/5)] : AList) ≠ [] := by simp
  have h2 : (keys [("A", (3 : ℚ)/5), ("B", 2/5)]).Nodup := by
    simp [keys]
  have h3 : isCent (100 : ℚ) := (isCent_iff 100).mpr ⟨10000, by norm_num⟩
  have h4 : (0 : ℚ) < minSurvTot (preMinAmounts [("A", (3 : ℚ)/5), ("B", 2/5)]
      100 ⟨[], none, none, 50, true⟩) 50 := by
    norm_num +decide [preMinAmounts, cappedWeights, round_amounts,
      reconcile_cent, normalize_weights, sumVals, round2, rhe, pyMax, pfilter,
      minSurvTot, minZeroed, setFirst, getD]
  exact ⟨h1, h2, h3, h4,
    claim_C1_conservation_amended _ _ _ h1 h2 h3 (Or.inr ⟨rfl, Or.inr h4⟩)⟩

/-! ### Claim C7: concrete cap scenario -/

/-- C7: with weights `{A: 0.6, B: 0.3, C: 0.1}` and budget `100.00`, the
engine returns `{A: 60.00, B: 30.00, C: 10.00}` without caps and
`{A: 50.00, B: 37.50, C: 12.50}` with `cap_top1 = 0.5` (A frozen at the cap,
its excess redistributed pro-rata over B and C), and both results sum to
exactly `100.00`. -/
theorem claim_C7_concrete_cap_scenario :
    allocate [("A", 6/10), ("B", 3/10), ("C", 1/10)] 100 {} =
      [("A", 60), ("B", 30), ("C", 10)] ∧
    allocate [("A", 6/10), ("B", 3/10), ("C", 1/10)] 100
      { cap_top1 := some (1/2) } =
      [("A", 50), ("B", 75/2), ("C", 25/2)] ∧
    sumVals (allocate [("A", 6/10), ("B", 3/10), ("C", 1/10)] 100 {}) = 100 ∧
    sumVals (allocate [("A", 6/10), ("B", 3/10), ("C", 1/10)] 100
      { cap_top1 := some (1/2) }) = 100 := by
  have ha : allocate [("A", 6/10), ("B", 3/10), ("C", 1/10)] 100 {} =
      [("A", 60), ("B", 30), ("C", 10)] := by
    norm_num +decide [allocate, preMinAmounts, cappedWeights, minStep,
      round_amounts, reconcile_cent, normalize_weights, sumVals, round2, rhe,
      pyMax, pfilter]
  have hb : allocate [("A", 6/10), ("B", 3/10), ("C", 1/10)] 100
      { cap_top1 := some (1/2) } = [("A", 50), ("B", 75/2), ("C", 25/2)] := by
    norm_num +decide [allocate, preMinAmounts, cappedWeights, minStep,
      round_amounts, reconcile_cent, normalize_weights, sumVals, round2, rhe,
      pyMax, apply_caps, capLoop, capRound, redistribute, addKey, pAppend,
      pGet, sortDesc, insertDesc, getD, setFirst, EPS, pfilter]
  refine ⟨ha, hb, ?_, ?_⟩
  · rw [ha]; norm_num [sumVals]
  · rw [hb]; norm_num [sumVals]

/-! ### Claim C8: cap invariant -/

/-- C8 counterexample: with a single provider `{A: 1.0}` and
`cap_top1 = 0.5`, every round caps A at `0.5`, finds no free provider, and
the degenerate fallback renormalizes A back to `1.0`; after the 10 bounded
rounds the returned weight is `1.0`, which exceeds `cap_top1 + 1e-9`. -/
theorem claim_C8_counterexample :
    (apply_caps [("A", 1)] (some (1/2)) none []).1 = [("A", 1)] ∧
    ¬ ((1 : ℚ) ≤ 1/2 + 1/10^9) := by
  constructor
  · norm_num +decide [apply_caps, capLoop, capRound, redistribute, addKey,
      pAppend, pGet, sortDesc, insertDesc, getD, setFirst, EPS, pfilter,
      pyMax, normalize_weights]
  · norm_num

/-- C8 (amended): the cap invariant holds whenever the redistribution loop has
converged, i.e. one further round would make no change (which is exactly how
the loop exits early): then no provider's weight exceeds `cap_top1 + 1e-9`,
and the three largest weights sum to at most `cap_top3 + 1e-9`. When the
10-round bound is exhausted without convergence (for instance when the
degenerate fallback fires), the invariant can fail. -/
theorem claim_C8_cap_invariant_amended (w : AList) (c1 c3 : Option ℚ)
    (ps : PList)
    (hconv : (capRound c1 c3 ⟨(apply_caps w c1 c3 ps).1, [], []⟩).2 = false) :
    (∀ c, c1 = some c →
      ∀ kv ∈ (apply_caps w c1 c3 ps).1, kv.2 ≤ c + 1/10^9) ∧
    (∀ c, c3 = some c → 3 ≤ (apply_caps w c1 c3 ps).1.length →
      (((sortDesc (apply_caps w c1 c3 ps).1).take 3).map Prod.snd).sum ≤
        c + 1/10^9) := by
  have hE : EPS ≤ 1/10^9 := by norm_num [EPS]
  constructor
  · rintro c rfl kv hkv
    have hb := capRound_false_top1 c c3
      ⟨(apply_caps w (some c) c3 ps).1, [], []⟩ hconv kv hkv
    linarith
  · rintro c rfl hlen
    have hb := capRound_false_top3 c1 c
      ⟨(apply_caps w c1 (some c) ps).1, [], []⟩ hconv hlen
    linarith

/-- Witness for C8 (amended) at weights `{A: 0.5, B: 0.3, C: 0.2}` with
`cap_top1 = 0.6`, `cap_top3 = 2`: no cap fires, the loop converges at once,
and every weight is bounded by `0.6 + 1e-9`. -/
theorem claim_C8_cap_invariant_amended_witness :
    (capRound (some (3/5)) (some 2)
      ⟨(apply_caps [("A", (1 : ℚ)/2), ("B", 3/10), ("C", 1/5)] (some (3/5))
        (some 2) []).1, [], []⟩).2 = false ∧
    (∀ kv ∈ (apply_caps [("A", (1 : ℚ)/2), ("B", 3/10), ("C", 1/5)]
      (some (3/5)) (some 2) []).1, kv.2 ≤ 3/5 + 1/10^9) := by
  have hconv : (capRound (some (3/5)) (some 2)
      ⟨(apply_caps [("A", (1 : ℚ)/2), ("B", 3/10), ("C", 1/5)] (some (3/5))
        (some 2) []).1, [], []⟩).2 = false := by
    norm_num +decide [apply_caps, capLoop, capRound, redistribute, addKey,
      pAppend, pGet, sortDesc, insertDesc, getD, setFirst, EPS, pfilter,
      pyMax, normalize_weights]
  exact ⟨hconv,
    (claim_C8_cap_invariant_amended _ _ _ _ hconv).1 (3/5) rfl⟩

/-! ### Hash chain (hashchain_writer.py and verify_hashchain.py)

Both scripts are embedded parametrically in
* `H` — `hashlib.sha256(bytes).hexdigest()` on the accumulated update bytes,
* `F` — `bytes.fromhex`,
* `E` — `str.encode("utf-8")`,
since every claim about them depends only on the chaining structure, not on
SHA-256 itself. Bytes are `List Nat`. A source artifact is its list of lines
with trailing newlines stripped; blank lines are skipped by both scripts.
`count % chunk` uses `Int.fmod`, which matches Python `%` (result carries the
divisor's sign); Python raises `ZeroDivisionError` exactly when the divisor is
zero, which the `main` wrappers surface explicitly. -/

/-- The 32-zero-byte initial anchor. -/
def ZERO32 : List Nat := List.replicate 32 0

/-- One chain-file line produced by the writer:
`(block_index, cumulative_line_count, digest)`. -/
abbrev Block := Nat × Nat × String

/-- Loop state shared by writer and verifier recomputation: the previous
block's digest bytes (`prev`), the bytes folded into the running hash so far
(`buf`), the non-empty line count and the next block index. -/
structure WCore where
  prev : List Nat
  buf : List Nat
  count : Nat
  blockIdx : Nat
deriving Repr, DecidableEq

def wInit : WCore := ⟨ZERO32, [], 0, 0⟩

/-- The writer's main loop: skip blank lines; per line fold in the previous
digest and the line bytes; when `count % chunk == 0`, finalize the digest,
emit a block, reset the hash and carry the digest forward as the next anchor.
Returns the final state and the emitted blocks. -/
def wRun (H : List Nat → String) (F : String → List Nat)
    (E : String → List Nat) (chunk : Int) :
    List String → WCore → WCore × List Block
  | [], st => (st, [])
  | s :: ls, st =>
      if s = "" then wRun H F E chunk ls st
      else
        let buf := st.buf ++ st.prev ++ E s
        let count := st.count + 1
        if Int.fmod (count : Int) chunk = 0 then
          let digest := H buf
          let r := wRun H F E chunk ls ⟨F digest, [], count, st.blockIdx + 1⟩
          (r.1, (st.blockIdx, count, digest) :: r.2)
        else wRun H F E chunk ls ⟨st.prev, buf, count, st.blockIdx⟩

/-- The full writer output: the main loop's blocks plus the final partial
block when the total line count is not a multiple of `chunk`. -/
def writeChain (H : List Nat → String) (F : String → List Nat)
    (E : String → List Nat) (chunk : Int) (lines : List String) : List Block :=
  let r := wRun H F E chunk lines wInit
  if Int.fmod (r.1.count : Int) chunk ≠ 0 then
    r.2 ++ [(r.1.blockIdx, r.1.count, H r.1.buf)]
  else r.2

/-- A parsed chain-file entry `(block, upto, digest)`, the three tab-separated
fields as strings. -/
abbrev VEntry := String × String × String

/-- Serialization of a writer block to the chain-file entry the verifier
parses back: the tab-separated block index, cumulative count and digest. -/
def entryOfBlock (b : Block) : VEntry := (toString b.1, toString b.2.1, b.2.2)

/-- Verifier loop state: recomputation state plus the verdict so far, the
next chain-entry index, and the entry positions reported as mismatches. -/
structure VCore where
  prev : List Nat
  buf : List Nat
  count : Nat
  ok : Bool
  entryIdx : Nat
  mismatches : List Nat
deriving Repr, DecidableEq

def vInit : VCore := ⟨ZERO32, [], 0, true, 0, []⟩

/-- The verifier's main loop: identical recomputation; at each full block, if
the chain has no entry left report a short chain and break, otherwise compare
the recorded digest with the recomputed one (recording a mismatch position on
disagreement, without stopping) — and in either digest case seed `prev` from
the recomputed digest, never from the recorded one. -/
def vRun (H : List Nat → String) (F : String → List Nat)
    (E : String → List Nat) (chunk : Int) (chain : List VEntry) :
    List String → VCore → VCore
  | [], st => st
  | s :: ls, st =>
      if s = "" then vRun H F E chunk chain ls st
      else
        let buf := st.buf ++ st.prev ++ E s
        let count := st.count + 1
        if Int.fmod (count : Int) chunk = 0 then
          let digest := H buf
          if chain.length ≤ st.entryIdx then
            { st with buf := buf, count := count, ok := false }
          else
            let e := chain.getD st.entryIdx ("", "", "")
            if e.2.2 ≠ digest then
              vRun H F E chunk chain ls
                ⟨F digest, [], count, false, st.entryIdx + 1,
                  st.mismatches ++ [st.entryIdx]⟩
            else
              vRun H F E chunk chain ls
                ⟨F digest, [], count, st.ok, st.entryIdx + 1, st.mismatches⟩
        else vRun H F E chunk chain ls
          ⟨st.prev, buf, count, st.ok, st.entryIdx, st.mismatches⟩

/-- The verifier's final-partial-block check, guarded by `ok` and by
`count % chunk != 0` — the only place a "chain too long" condition could have
been checked, and it is not. -/
def vFinal (H : List Nat → String) (chunk : Int) (chain : List VEntry)
    (st : VCore) : VCore :=
  if st.ok = true ∧ Int.fmod (st.count : Int) chunk ≠ 0 then
    let digest := H st.buf
    if chain.length ≤ st.entryIdx then { st with ok := false }
    else
      let e := chain.getD st.entryIdx ("", "", "")
      if e.2.2 ≠ digest then
        { st with ok := false, mismatches := st.mismatches ++ [st.entryIdx] }
      else st
  else st

/-- The comparison pass of verify_hashchain.py `main`. -/
def runVerify (H : List Nat → String) (F : String → List Nat)
    (E : String → List Nat) (chunk : Int) (lines : List String)
    (chain : List VEntry) : VCore :=
  vFinal H chunk chain (vRun H F E chunk chain lines vInit)

/-- The verifier's exit code: 0 when consistent, 3 otherwise. -/
def verifyExit (H : List Nat → String) (F : String → List Nat)
    (E : String → List Nat) (chunk : Int) (lines : List String)
    (chain : List VEntry) : Nat :=
  if (runVerify H F E chunk lines chain).ok then 0 else 3

/-- Outcome of one of the two CLI mains: an explicit `[FATAL]` exit, an
uncaught runtime exception, or normal completion with an exit code and
produced output. -/
inductive MainResult (α : Type)
  | fatal (exitCode : Nat)
  | exn
  | done (exitCode : Nat) (out : α)
deriving Repr, DecidableEq

/-- hashchain_writer.py `main`: exits 2 when the source is missing; otherwise
creates the output file and runs the loop. There is no validation of
`--chunk`: `chunk = 0` makes Python's `%` raise an uncaught
`ZeroDivisionError` (after the output file has already been opened), and any
other value — negative included — runs to completion with exit 0. -/
def writer_main (H : List Nat → String) (F : String → List Nat)
    (E : String → List Nat) (chunk : Int) (sourceExists : Bool)
    (lines : List String) : MainResult (List Block) :=
  if ¬ sourceExists then .fatal 2
  else if chunk = 0 then .exn
  else .done 0 (writeChain H F E chunk lines)

/-- verify_hashchain.py `main`: exits 2 when source or chain is missing;
otherwise runs the comparison. Like the writer it performs no `--chunk`
validation: `chunk = 0` raises `ZeroDivisionError` after both files were
read, and other values run the comparison pass. -/
def verifier_main (H : List Nat → String) (F : String → List Nat)
    (E : String → List Nat) (chunk : Int) (filesExist : Bool)
    (lines : List String) (chain : List VEntry) : MainResult Unit :=
  if ¬ filesExist then .fatal 2
  else if chunk = 0 then .exn
  else .done (verifyExit H F E chunk lines chain) ()

/-! ### Relating a verifier run to the writer's recomputation -/

/-- Positions (absolute chain-entry indices) at which the recorded digests
disagree with a block sequence laid out from position `k`. -/
def mismAbs (chain : List VEntry) : Nat → List Block → List Nat
  | _, [] => []
  | k, b :: bs =>
      (if (chain.getD k ("", "", "")).2.2 ≠ b.2.2 then [k] else []) ++
        mismAbs chain (k + 1) bs

/-- Workhorse: a verifier run from a state matching the writer's state, with
enough chain entries for the writer's emissions, ends in the writer's final
recomputation state; its verdict and mismatch positions are exactly
determined by comparing the chain entries against the emitted blocks. The
anchor is re-seeded from recomputed digests throughout, so a recorded-digest
disagreement affects only its own position. -/
theorem vRun_writer (H : List Nat → String) (F : String → List Nat)
    (E : String → List Nat) (chunk : Int) (chain : List VEntry)
    (ls : List String) (c : WCore) (k : Nat) (ok0 : Bool) (mis : List Nat)
    (hlen : k + (wRun H F E chunk ls c).2.length ≤ chain.length) :
    vRun H F E chunk chain ls ⟨c.prev, c.buf, c.count, ok0, k, mis⟩ =
      ⟨(wRun H F E chunk ls c).1.prev, (wRun H F E chunk ls c).1.buf,
       (wRun H F E chunk ls c).1.count,
       ok0 && (mismAbs chain k (wRun H F E chunk ls c).2).isEmpty,
       k + (wRun H F E chunk ls c).2.length,
       mis ++ mismAbs chain k (wRun H F E chunk ls c).2⟩ := by
  induction ls generalizing c k ok0 mis with
  | nil => simp [vRun, wRun, mismAbs]
  | cons s ls ih =>
      by_cases hs : s = ""
      · rw [show wRun H F E chunk (s :: ls) c = wRun H F E chunk ls c from by
          rw [wRun, if_pos hs]] at hlen ⊢
        rw [vRun, if_pos hs]
        exact ih c k ok0 mis hlen
      · by_cases hb : Int.fmod ((c.count + 1 : Nat) : Int) chunk = 0
        · have hw : wRun H F E chunk (s :: ls) c =
            ((wRun H F E chunk ls ⟨F (H (c.buf ++ c.prev ++ E s)), [],
                c.count + 1, c.blockIdx + 1⟩).1,
              (c.blockIdx, c.count + 1, H (c.buf ++ c.prev ++ E s)) ::
                (wRun H F E chunk ls ⟨F (H (c.buf ++ c.prev ++ E s)), [],
                  c.count + 1, c.blockIdx + 1⟩).2) := by
            rw [wRun, if_neg hs]
            dsimp only
            rw [if_pos hb]
          rw [hw] at hlen ⊢
          simp only [List.length_cons] at hlen
          have hnshort : ¬ (chain.length ≤ k) := by omega
          have hlen' : (k + 1) + (wRun H F E chunk ls
              ⟨F (H (c.buf ++ c.prev ++ E s)), [], c.count + 1,
                c.blockIdx + 1⟩).2.length ≤ chain.length := by omega
          rw [vRun, if_neg hs]
          dsimp only
          rw [if_pos hb, if_neg hnshort]
          by_cases hd : (chain.getD k ("", "", "")).2.2 =
              H (c.buf ++ c.prev ++ E s)
          · rw [if_neg (fun hcon => hcon hd)]
            have h2 := ih ⟨F (H (c.buf ++ c.prev ++ E s)), [], c.count + 1,
              c.blockIdx + 1⟩ (k + 1) ok0 mis hlen'
            dsimp only at h2
            rw [h2]
            simp only [VCore.mk.injEq, true_and]
            refine ⟨?_, ?_, ?_⟩
            · simp only [mismAbs]
              rw [if_neg (fun hcon => hcon hd)]
              simp
            · simp only [List.length_cons]; omega
            · simp only [mismAbs]
              rw [if_neg (fun hcon => hcon hd)]
              simp
          · rw [if_pos hd]
            have h2 := ih ⟨F (H (c.buf ++ c.prev ++ E s)), [], c.count + 1,
              c.blockIdx + 1⟩ (k + 1) false (mis ++ [k]) hlen'
            dsimp only at h2
            rw [h2]
            simp only [VCore.mk.injEq, true_and]
            refine ⟨?_, ?_, ?_⟩
            · simp only [mismAbs]
              rw [if_pos hd]
              simp
            · simp only [List.length_cons]; omega
            · simp only [mismAbs]
              rw [if_pos hd]
              simp
        · have hw : wRun H F E chunk (s :: ls) c =
              wRun H F E chunk ls ⟨c.prev, c.buf ++ c.prev ++ E s,
                c.count + 1, c.blockIdx⟩ := by
            rw [wRun, if_neg hs]
            dsimp only
            rw [if_neg hb]
          rw [hw] at hlen ⊢
          rw [vRun, if_neg hs]
          dsimp only
          rw [if_neg hb]
          exact ih ⟨c.prev, c.buf ++ c.prev ++ E s, c.count + 1, c.blockIdx⟩
            k ok0 mis hlen

/-- Reading a chain built from blocks: positions inside the block list give
the serialized block. -/
theorem getD_map_entry (bs : List Block) (rest : List VEntry) (j : Nat)
    (hj : j < bs.length) :
    ((bs.map entryOfBlock) ++ rest).getD j ("", "", "") =
      entryOfBlock (bs.getD j (0, 0, "")) := by
  rw [List.getD_append _ _ _ _ (by simpa using hj)]
  simp [List.getD_eq_getElem?_getD, List.getElem?_map]
  rw [List.getElem?_eq_getElem hj]
  simp

/-- If the chain digests agree with the blocks from position `k` on, no
mismatch is recorded. -/
theorem mismAbs_eq_nil (chain : List VEntry) (bs : List Block) (k : Nat)
    (h : ∀ j, j < bs.length →
      (chain.getD (k + j) ("", "", "")).2.2 = (bs.getD j (0, 0, "")).2.2) :
    mismAbs chain k bs = [] := by
  induction bs generalizing k with
  | nil => rfl
  | cons b t ih =>
      have h0 : (chain.getD k ("", "", "")).2.2 = b.2.2 := by
        have := h 0 (by simp)
        simpa using this
      simp only [mismAbs]
      rw [if_neg (fun hcon => hcon h0)]
      rw [ih (k + 1) (fun j hj => by
        have := h (j + 1) (by simpa using Nat.succ_lt_succ hj)
        rw [show k + (j + 1) = k + 1 + j by omega] at this
        simpa using this)]
      rfl

/-- If the chain digests agree with the blocks everywhere except at absolute
position `i`, exactly `[i]` is recorded. -/
theorem mismAbs_eq_single (chain : List VEntry) (bs : List Block) (k i : Nat)
    (hk : k ≤ i) (hi : i < k + bs.length)
    (hagree : ∀ j, j < bs.length → k + j ≠ i →
      (chain.getD (k + j) ("", "", "")).2.2 = (bs.getD j (0, 0, "")).2.2)
    (hdiff : (chain.getD i ("", "", "")).2.2 ≠
      (bs.getD (i - k) (0, 0, "")).2.2) :
    mismAbs chain k bs = [i] := by
  induction bs generalizing k with
  | nil => simp at hi; omega
  | cons b t ih =>
      by_cases hki : k = i
      · subst hki
        have hd : (chain.getD k ("", "", "")).2.2 ≠ b.2.2 := by
          simpa using hdiff
        simp only [mismAbs]
        rw [if_pos hd]
        rw [mismAbs_eq_nil chain t (k + 1) (fun j hj => by
          have := hagree (j + 1) (by simpa using Nat.succ_lt_succ hj) (by omega)
          rw [show k + (j + 1) = k + 1 + j by omega] at this
          simpa using this)]
        rfl
      · have hklt : k < i := lt_of_le_of_ne hk hki
        have h0 : (chain.getD k ("", "", "")).2.2 = b.2.2 := by
          have := hagree 0 (by simp) (by omega)
          simpa using this
        simp only [mismAbs]
        rw [if_neg (fun hcon => hcon h0)]
        rw [ih (k + 1) (by omega) (by simp at hi ⊢; omega) (fun j hj hne => by
          have := hagree (j + 1) (by simpa using Nat.succ_lt_succ hj)
            (by omega)
          rw [show k + (j + 1) = k + 1 + j by omega] at this
          simpa using this) (by
            rw [show i - k = (i - (k + 1)) + 1 by omega] at hdiff
            simpa using hdiff)]
        rfl

/-- The verifier accepts any chain that starts with the writer's serialized
output for the same source and chunk size — regardless of what follows it:
the pass compares exactly the emitted blocks and never looks for trailing
entries. -/
theorem runVerify_writer_chain (H : List Nat → String) (F : String → List Nat)
    (E : String → List Nat) (chunk : Int) (lines : List String)
    (rest : List VEntry) :
    (runVerify H F E chunk lines
      ((writeChain H F E chunk lines).map entryOfBlock ++ rest)).ok = true ∧
    (runVerify H F E chunk lines
      ((writeChain H F E chunk lines).map entryOfBlock ++ rest)).mismatches
      = [] := by
  unfold runVerify
  have hrw : vInit = (⟨wInit.prev, wInit.buf, wInit.count, true, 0, []⟩ : VCore) := rfl
  rw [hrw]
  by_cases hp : Int.fmod ((wRun H F E chunk lines wInit).1.count : Int) chunk = 0
  · -- no partial final block: writeChain = main-loop blocks
    have hfull : writeChain H F E chunk lines =
        (wRun H F E chunk lines wInit).2 := by
      unfold writeChain
      rw [if_neg (by simpa using hp)]
    rw [hfull]
    rw [vRun_writer H F E chunk _ lines wInit 0 true [] (by
      simp [List.length_append, List.length_map])]
    rw [mismAbs_eq_nil _ _ _ (fun j hj => by
      rw [Nat.zero_add, getD_map_entry _ _ _ hj]; rfl)]
    unfold vFinal
    rw [if_neg (by
      dsimp only
      intro hcon
      exact hcon.2 hp)]
    simp
  · -- partial final block present
    have hfull : writeChain H F E chunk lines =
        (wRun H F E chunk lines wInit).2 ++
          [((wRun H F E chunk lines wInit).1.blockIdx,
            (wRun H F E chunk lines wInit).1.count,
            H (wRun H F E chunk lines wInit).1.buf)] := by
      unfold writeChain
      rw [if_pos (by simpa using hp)]
    rw [hfull]
    have hlen : 0 + (wRun H F E chunk lines wInit).2.length ≤
        (((wRun H F E chunk lines wInit).2 ++
          [((wRun H F E chunk lines wInit).1.blockIdx,
            (wRun H F E chunk lines wInit).1.count,
            H (wRun H F E chunk lines wInit).1.buf)]).map entryOfBlock ++
          rest).length := by
      simp [List.length_append, List.length_map]
    rw [vRun_writer H F E chunk _ lines wInit 0 true [] hlen]
    rw [mismAbs_eq_nil _ _ _ (fun j hj => by
      rw [Nat.zero_add, getD_map_entry _ _ _ (by
        simp only [List.length_append, List.length_cons, List.length_nil]
        omega)]
      rw [List.getD_append _ _ _ _ hj]; rfl)]
    unfold vFinal
    dsimp only
    rw [if_pos ⟨by simp, by simpa using hp⟩]
    have hidx : ((((wRun H F E chunk lines wInit).2 ++
        [((wRun H F E chunk lines wInit).1.blockIdx,
          (wRun H F E chunk lines wInit).1.count,
          H (wRun H F E chunk lines wInit).1.buf)]).map entryOfBlock ++
        rest).getD (0 + (wRun H F E chunk lines wInit).2.length)
        ("", "", "")).2.2 = H (wRun H F E chunk lines wInit).1.buf := by
      rw [Nat.zero_add, getD_map_entry _ _ _ (by
        simp only [List.length_append, List.length_cons, List.length_nil]
        omega)]
      rw [List.getD_append_right _ _ _ _ (le_refl _)]
      simp [entryOfBlock]
    rw [if_neg (by
      simp only [List.length_append, List.length_map, List.length_cons,
        List.length_nil]
      omega)]
    rw [if_neg (fun hcon => hcon hidx)]
    simp

/-! ### Tampering a single recorded digest -/

/-- Replace the recorded digest of entry `i`, keeping its other fields. -/
def setDigest (chain : List VEntry) (i : Nat) (d : String) : List VEntry :=
  chain.set i ((chain.getD i ("", "", "")).1, (chain.getD i ("", "", "")).2.1, d)

theorem setDigest_length (chain : List VEntry) (i : Nat) (d : String) :
    (setDigest chain i d).length = chain.length := by
  simp [setDigest]

theorem getD_setDigest_ne (chain : List VEntry) (i : Nat) (d : String)
    (j : Nat) (hij : i ≠ j) :
    (setDigest chain i d).getD j ("", "", "") = chain.getD j ("", "", "") := by
  simp [setDigest, List.getD_eq_getElem?_getD, List.getElem?_set_ne hij]

theorem getD_setDigest_eq (chain : List VEntry) (i : Nat) (d : String)
    (hi : i < chain.length) :
    ((setDigest chain i d).getD i ("", "", "")).2.2 = d := by
  simp [setDigest, List.getD_eq_getElem?_getD, List.getElem?_set_self hi]

theorem getD_map_entry_nil (bs : List Block) (j : Nat) (hj : j < bs.length) :
    (bs.map entryOfBlock).getD j ("", "", "") =
      entryOfBlock (bs.getD j (0, 0, "")) := by
  have := getD_map_entry bs [] j hj
  simpa using this

/-- Behaviour of the verifier on the writer's chain with entry `i`'s recorded
digest replaced by a wrong value: the run fails, and position `i` is the only
mismatch reported — every other comparison still succeeds because the anchor
is re-seeded from the recomputed digest, and the partial-final comparison is
skipped once `ok` is false. -/
theorem runVerify_setDigest (H : List Nat → String) (F : String → List Nat)
    (E : String → List Nat) (chunk : Int) (lines : List String)
    (i : Nat) (d' : String)
    (hi : i < (writeChain H F E chunk lines).length)
    (hd : d' ≠ ((writeChain H F E chunk lines).getD i (0, 0, "")).2.2) :
    (runVerify H F E chunk lines
      (setDigest ((writeChain H F E chunk lines).map entryOfBlock) i d')).ok
        = false ∧
    (runVerify H F E chunk lines
      (setDigest ((writeChain H F E chunk lines).map entryOfBlock) i d')).mismatches
        = [i] := by
  unfold runVerify
  have hrw : vInit =
    (⟨wInit.prev, wInit.buf, wInit.count, true, 0, []⟩ : VCore) := rfl
  rw [hrw]
  by_cases hp : Int.fmod ((wRun H F E chunk lines wInit).1.count : Int) chunk = 0
  · -- no partial block: the tampered entry is a full block's
    have hfull : writeChain H F E chunk lines =
        (wRun H F E chunk lines wInit).2 := by
      unfold writeChain
      rw [if_neg (by simpa using hp)]
    rw [hfull] at hi hd ⊢
    have hclen : (setDigest ((wRun H F E chunk lines wInit).2.map entryOfBlock)
        i d').length = (wRun H F E chunk lines wInit).2.length := by
      rw [setDigest_length]
      simp
    rw [vRun_writer H F E chunk _ lines wInit 0 true [] (by rw [hclen]; omega)]
    rw [mismAbs_eq_single _ _ 0 i (Nat.zero_le i) (by simpa using hi)
      (fun j hj hne => by
        rw [Nat.zero_add] at hne ⊢
        rw [getD_setDigest_ne _ _ _ _ (fun he => hne he.symm)]
        rw [getD_map_entry_nil _ _ hj]
        rfl)
      (by
        rw [Nat.sub_zero]
        rw [getD_setDigest_eq _ _ _ (by simpa using hi)]
        exact hd)]
    unfold vFinal
    rw [if_neg (by
      dsimp only
      intro hcon
      simp at hcon)]
    simp
  · -- a partial final block exists
    have hfull : writeChain H F E chunk lines =
        (wRun H F E chunk lines wInit).2 ++
          [((wRun H F E chunk lines wInit).1.blockIdx,
            (wRun H F E chunk lines wInit).1.count,
            H (wRun H F E chunk lines wInit).1.buf)] := by
      unfold writeChain
      rw [if_pos (by simpa using hp)]
    rw [hfull] at hi hd ⊢
    simp only [List.length_append, List.length_cons, List.length_nil] at hi
    have hclen : (setDigest ((((wRun H F E chunk lines wInit).2 ++
        [((wRun H F E chunk lines wInit).1.blockIdx,
          (wRun H F E chunk lines wInit).1.count,
          H (wRun H F E chunk lines wInit).1.buf)]).map entryOfBlock))
        i d').length = (wRun H F E chunk lines wInit).2.length + 1 := by
      rw [setDigest_length]
      simp
    by_cases hib : i < (wRun H F E chunk lines wInit).2.length
    · -- tampered entry is a full block's: the loop reports it; the final
      -- partial comparison is skipped because ok is already false
      rw [vRun_writer H F E chunk _ lines wInit 0 true [] (by
        rw [hclen]; omega)]
      rw [mismAbs_eq_single _ _ 0 i (Nat.zero_le i) (by simpa using hib)
        (fun j hj hne => by
          rw [Nat.zero_add] at hne ⊢
          rw [getD_setDigest_ne _ _ _ _ (fun he => hne he.symm)]
          rw [List.map_append, getD_map_entry _ _ _ hj]
          rfl)
        (by
          rw [Nat.sub_zero]
          rw [getD_setDigest_eq _ _ _ (by simp; omega)]
          rw [List.getD_append _ _ _ _ hib] at hd
          exact hd)]
      unfold vFinal
      rw [if_neg (by
        dsimp only
        intro hcon
        simp at hcon)]
      simp
    · -- tampered entry is the final partial block's
      have hieq : i = (wRun H F E chunk lines wInit).2.length := by omega
      rw [vRun_writer H F E chunk _ lines wInit 0 true [] (by
        rw [hclen]; omega)]
      rw [mismAbs_eq_nil _ _ 0 (fun j hj => by
        rw [Nat.zero_add]
        rw [getD_setDigest_ne _ _ _ _ (by omega)]
        rw [List.map_append, getD_map_entry _ _ _ hj]
        rfl)]
      unfold vFinal
      dsimp only
      rw [if_pos ⟨by simp, by simpa using hp⟩]
      rw [if_neg (by
        rw [hclen]
        omega)]
      have he22 : ((setDigest (((wRun H F E chunk lines wInit).2 ++
          [((wRun H F E chunk lines wInit).1.blockIdx,
            (wRun H F E chunk lines wInit).1.count,
            H (wRun H F E chunk lines wInit).1.buf)]).map entryOfBlock)
          i d').getD (0 + (wRun H F E chunk lines wInit).2.length)
          ("", "", "")).2.2 = d' := by
        rw [Nat.zero_add, ← hieq]
        exact getD_setDigest_eq _ _ _ (by simp; omega)
      have hdig : d' ≠ H (wRun H F E chunk lines wInit).1.buf := by
        intro he
        apply hd
        rw [he]
        rw [show ((wRun H F E chunk lines wInit).2 ++
          [((wRun H F E chunk lines wInit).1.blockIdx,
            (wRun H F E chunk lines wInit).1.count,
            H (wRun H F E chunk lines wInit).1.buf)]).getD i (0, 0, "") =
            ((wRun H F E chunk lines wInit).1.blockIdx,
              (wRun H F E chunk lines wInit).1.count,
              H (wRun H F E chunk lines wInit).1.buf) from by
          rw [hieq]
          rw [List.getD_append_right _ _ _ _ (le_refl _)]
          simp]
      rw [if_pos (by rw [he22]; exact hdig)]
      constructor
      · rfl
      · dsimp only
        rw [hieq]
        simp

/-! ### Claims C2, C3, C6, C9, C10 -/

/-- C2: the claim states trailing chain entries are always rejected with a
non-zero exit, the check being unconditional after the main pass. The code has
no trailing-entries check at all: an empty source with a non-empty chain
passes (exit 0), and a 6-line source at an exact chunk-3 boundary with a bogus
trailing entry appended to the writer's own chain also passes (exit 0) — for
every hash function. -/
theorem claim_C2_trailing_entries_accepted (H : List Nat → String)
    (F : String → List Nat) (E : String → List Nat) :
    verifier_main H F E 3 true []
      [("0", "1", String.mk (List.replicate 64 'a'))] = .done 0 () ∧
    verifier_main H F E 3 true ["l1", "l2", "l3", "l4", "l5", "l6"]
      ((writeChain H F E 3 ["l1", "l2", "l3", "l4", "l5", "l6"]).map
        entryOfBlock ++
        [("99", "9999", String.mk (List.replicate 64 'a'))]) = .done 0 () := by
  constructor
  · rfl
  · unfold verifier_main
    rw [if_neg (by simp), if_neg (by norm_num)]
    unfold verifyExit
    have h := runVerify_writer_chain H F E 3 ["l1", "l2", "l3", "l4", "l5", "l6"]
      [("99", "9999", String.mk (List.replicate 64 'a'))]
    rw [h.1]
    rfl

/-- C3: the claim states a recorded `block_index` that does not match its
position in file order is rejected. The verifier never reads the recorded
`block_index`: a single-block chain whose index field is `"99"` instead of
`"0"` but whose digest is the correct recomputed one passes with exit 0 — for
every hash function. -/
theorem claim_C3_tampered_index_accepted (H : List Nat → String)
    (F : String → List Nat) (E : String → List Nat) :
    verifier_main H F E 1 true ["a"]
      [("99", "1", H (ZERO32 ++ E "a"))] = .done 0 () := by
  unfold verifier_main
  rw [if_neg (by simp), if_neg (by norm_num)]
  norm_num +decide [verifyExit, runVerify, vRun, vFinal, vInit]

/-- C6: writer/verifier round-trip — the chain file produced by the writer,
fed back to the verifier with the same source and the same positive chunk
size, passes with exit 0. -/
theorem claim_C6_roundtrip (H : List Nat → String) (F : String → List Nat)
    (E : String → List Nat) (chunk : Int) (lines : List String)
    (hchunk : 0 < chunk) :
    verifier_main H F E chunk true lines
      ((writeChain H F E chunk lines).map entryOfBlock) = .done 0 () := by
  unfold verifier_main
  rw [if_neg (by simp), if_neg (by omega)]
  unfold verifyExit
  have h := runVerify_writer_chain H F E chunk lines []
  rw [List.append_nil] at h
  rw [h.1]
  rfl

/-- Witness for C6 at a concrete hash function, source and chunk size. -/
theorem claim_C6_roundtrip_witness :
    (0 : Int) < 1 ∧
    verifier_main (fun bs => toString bs.length)
      (fun s => s.toList.map Char.toNat) (fun s => s.toList.map Char.toNat)
      1 true ["a"]
      ((writeChain (fun bs => toString bs.length)
        (fun s => s.toList.map Char.toNat) (fun s => s.toList.map Char.toNat)
        1 ["a"]).map entryOfBlock) = .done 0 () :=
  ⟨by norm_num,
    claim_C6_roundtrip (fun bs => toString bs.length)
      (fun s => s.toList.map Char.toNat) (fun s => s.toList.map Char.toNat)
      1 ["a"] (by norm_num)⟩

/-- C9: the claim states both scripts exit non-zero with a fatal
configuration message before any file I/O for every `--chunk <= 0`. Neither
script validates `--chunk`: with `--chunk -3` both run to completion with
exit 0 (the writer even writes a chain file), and with `--chunk 0` both die
of an uncaught `ZeroDivisionError` after the files were already opened — for
every hash function. -/
theorem claim_C9_chunk_guard_missing (H : List Nat → String)
    (F : String → List Nat) (E : String → List Nat) :
    writer_main H F E (-3) true ["a"] = .done 0 [(0, 1, H (ZERO32 ++ E "a"))] ∧
    verifier_main H F E (-3) true ["a"]
      [("0", "1", H (ZERO32 ++ E "a"))] = .done 0 () ∧
    writer_main H F E 0 true ["a"] = .exn ∧
    verifier_main H F E 0 true ["a"]
      [("0", "1", H (ZERO32 ++ E "a"))] = .exn := by
  refine ⟨?_, ?_, rfl, rfl⟩
  · unfold writer_main
    rw [if_neg (by simp), if_neg (by norm_num)]
    norm_num +decide [writeChain, wRun, wInit]
  · unfold verifier_main
    rw [if_neg (by simp), if_neg (by norm_num)]
    norm_num +decide [verifyExit, runVerify, vRun, vFinal, vInit]

/-- C10: mismatch isolation — the anchor carried into each block is the
recomputed digest, never the recorded one, so when the chain agrees with the
recomputation everywhere except entry `i`'s recorded digest, the verifier
reports a mismatch at position `i` only, and the overall run still fails with
exit 3. -/
theorem claim_C10_mismatch_isolation (H : List Nat → String)
    (F : String → List Nat) (E : String → List Nat) (chunk : Int)
    (lines : List String) (i : Nat) (d' : String) (hchunk : 0 < chunk)
    (hi : i < (writeChain H F E chunk lines).length)
    (hd : d' ≠ ((writeChain H F E chunk lines).getD i (0, 0, "")).2.2) :
    (runVerify H F E chunk lines
      (setDigest ((writeChain H F E chunk lines).map entryOfBlock) i d')).mismatches
        = [i] ∧
    verifier_main H F E chunk true lines
      (setDigest ((writeChain H F E chunk lines).map entryOfBlock) i d') =
      .done 3 () := by
  have h := runVerify_setDigest H F E chunk lines i d' hi hd
  refine ⟨h.2, ?_⟩
  unfold verifier_main
  rw [if_neg (by simp), if_neg (by omega)]
  unfold verifyExit
  rw [h.1]
  rfl

/-- Witness for C10: a 1-line source at chunk 1 whose single recorded digest
is replaced by a wrong value is rejected with exit 3 and mismatch list
`[0]`. -/
theorem claim_C10_mismatch_isolation_witness :
    ((0 : Int) < 1 ∧
      0 < (writeChain (fun bs => toString bs.length)
        (fun s => s.toList.map Char.toNat) (fun s => s.toList.map Char.toNat)
        1 ["a"]).length ∧
      "x" ≠ ((writeChain (fun bs => toString bs.length)
        (fun s => s.toList.map Char.toNat) (fun s => s.toList.map Char.toNat)
        1 ["a"]).getD 0 (0, 0, "")).2.2) ∧
    verifier_main (fun bs => toString bs.length)
      (fun s => s.toList.map Char.toNat) (fun s => s.toList.map Char.toNat)
      1 true ["a"]
      (setDigest ((writeChain (fun bs => toString bs.length)
        (fun s => s.toList.map Char.toNat) (fun s => s.toList.map Char.toNat)
        1 ["a"]).map entryOfBlock) 0 "x") = .done 3 () := by
  have h1 : (0 : Int) < 1 := by norm_num
  have h2 : 0 < (writeChain (fun bs => toString bs.length)
      (fun s => s.toList.map Char.toNat) (fun s => s.toList.map Char.toNat)
      1 ["a"]).length := by decide
  have h3 : "x" ≠ ((writeChain (fun bs => toString bs.length)
      (fun s => s.toList.map Char.toNat) (fun s => s.toList.map Char.toNat)
      1 ["a"]).getD 0 (0, 0, "")).2.2 := by decide
  exact ⟨⟨h1, h2, h3⟩,
    (claim_C10_mismatch_isolation (fun bs => toString bs.length)
      (fun s => s.toList.map Char.toNat) (fun s => s.toList.map Char.toNat)
      1 ["a"] 0 "x" h1 h2 h3).2⟩

/-! ### Period validation (payouts_from_royalties.py main) -/

/-- Python `str.split(sep)` for a one-character separator. -/
def splitChar (sep : Char) (s : String) : List String :=
  (s.toList.foldr
    (fun c (acc : List (List Char)) =>
      if c = sep then [] :: acc
      else
        match acc with
        | [] => [[c]]
        | g :: gs => (c :: g) :: gs)
    [[]]).map (fun g => String.mk g)

/-- Value of a decimal digit list. -/
def digitsToNat (ds : List Char) : Nat :=
  ds.foldl (fun n c => n * 10 + (c.toNat - 48)) 0

/-- Python `int(s)` on a decimal string: an optional sign followed by at
least one digit (whitespace and underscore grouping are not modelled; the
period strings at issue contain neither). `int("01") = 1`, so zero padding is
not distinguishable after parsing. -/
def pyInt? (s : String) : Option Int :=
  match s.toList with
  | [] => none
  | '-' :: ds =>
      if ds ≠ [] ∧ ds.all Char.isDigit = true then
        some (-(digitsToNat ds : Int))
      else none
  | '+' :: ds =>
      if ds ≠ [] ∧ ds.all Char.isDigit = true then
        some ((digitsToNat ds : Int))
      else none
  | ds =>
      if ds.all Char.isDigit = true then some ((digitsToNat ds : Int))
      else none

/-- `year, month = map(int, args.period.split("-"))` with
`assert 1 <= month <= 12`, as guarded by the `try`: `none` when the unpack,
an `int()` call or the assert fails. -/
def parse_period (period : String) : Option (Int × Int) :=
  match (splitChar '-' period).map pyInt? with
  | [some y, some m] => if 1 ≤ m ∧ m ≤ 12 then some (y, m) else none
  | _ => none

/-- The period-handling block of `main`: the `except` branch does NOT abort —
it prints a `[WARN]` line and substitutes the sandbox default period
`"2025-11"`, then the run continues. The function returns the
`(period, year, month)` the rest of `main` runs with; the source has no
fatal exit for a malformed period. -/
def resolve_period (period : String) : String × Int × Int :=
  match parse_period period with
  | some (y, m) => (period, y, m)
  | none => ("2025-11", 2025, 11)

/-- C5: the claim states a malformed `--period` (including a non-zero-padded
month) aborts with a non-zero exit and no output. The code instead continues:
an out-of-range month (`"2025-13"`) and a non-numeric period are silently
replaced by the sandbox default `"2025-11"` and the run proceeds, and the
non-zero-padded `"2025-1"` is accepted as-is (month 1) with no warning at
all. -/
theorem claim_C5_invalid_period_not_fatal :
    resolve_period "2025-13" = ("2025-11", 2025, 11) ∧
    resolve_period "not-a-period" = ("2025-11", 2025, 11) ∧
    resolve_period "2025-1" = ("2025-1", 2025, 1) := by
  refine ⟨?_, ?_, ?_⟩ <;> decide

/-! ### Bundle / manifest verifier (crovia/verify.py)

Paths are lists of components. Filesystem resolution (`Path.resolve()`, which
follows symlinks and eliminates `..`) and file existence are abstract
parameters, as are the trust-bundle JSON read and the hash-chain subprocess
return code; `resolved.relative_to(crc_dir)` succeeds exactly when the
resolved bundle directory's components are a prefix of the resolved path's. -/

abbrev PPath := List String

/-- A JSON value in the `artifacts` mapping: a string or anything else. -/
inductive JVal
  | str (s : String)
  | other
deriving DecidableEq, Repr

/-- The parsed MANIFEST.json fields the verifier reads: `.get()` results for
`schema` and `contract` (`none` for missing or non-string), and the
`artifacts` member (`none` when not a JSON object). -/
structure Manifest where
  schema : Option String
  contract : Option String
  artifacts : Option (List (String × JVal))

/-- The `_fail` reasons of crovia/verify.py, in program order. -/
inductive BundleErr
  | badSchema
  | badContract
  | artifactsNotObject
  | missingKey (k : String)
  | notAString (k : String)
  | pathTraversal (k : String) (rel : String)
  | missingArtifact (k : String) (rel : String)
  | trustBundleInvalidJson
  | hashchainFailed
deriving DecidableEq, Repr

/-- `crc_dir / rel` for a relative artifact path. -/
def pathJoin (base : PPath) (rel : String) : PPath := base ++ splitChar '/' rel

/-- The per-artifact loop of `main` (existence checks + path traversal
guard): for each entry in mapping order, reject non-strings and blank
strings, resolve the joined path, reject it unless it stays under the bundle
directory, then require the file to exist; collect the resolved safe paths. -/
def checkArtifacts (crcDir : PPath) (resolve : PPath → PPath)
    (exis : PPath → Bool) : List (String × JVal) →
    Except BundleErr (List (String × PPath))
  | [] => .ok []
  | (k, v) :: rest =>
      match v with
      | .other => .error (.notAString k)
      | .str rel =>
          if rel.toList.all Char.isWhitespace then .error (.notAString k)
          else
            let resolved := resolve (pathJoin crcDir rel)
            if crcDir.isPrefixOf resolved then
              if exis resolved then
                (checkArtifacts crcDir resolve exis rest).map
                  (fun safe => (k, resolved) :: safe)
              else .error (.missingArtifact k rel)
            else .error (.pathTraversal k rel)

/-- The CRC-1 required artifact keys. -/
def requiredKeys : List String :=
  ["receipts", "validate_report", "hashchain", "trust_bundle"]

/-- crovia/verify.py `main` from the parsed manifest on: schema and contract
checks, required keys, the artifact loop, the trust-bundle JSON parse (the
first artifact read), and the hash-chain subprocess as final gate. -/
def bundle_verify (crcDir : PPath) (resolve : PPath → PPath)
    (exis : PPath → Bool) (readJsonOk : PPath → Bool)
    (chainRC : PPath → PPath → Int) (m : Manifest) : Except BundleErr Unit :=
  if m.schema ≠ some "crovia.manifest.v1" then .error .badSchema
  else if m.contract ≠ some "CRC-1" then .error .badContract
  else
    match m.artifacts with
    | none => .error .artifactsNotObject
    | some arts =>
        match requiredKeys.find? (fun k => !(arts.map Prod.fst).contains k) with
        | some k => .error (.missingKey k)
        | none =>
            match checkArtifacts crcDir resolve exis arts with
            | .error e => .error e
            | .ok safe =>
                if !readJsonOk ((safe.lookup "trust_bundle").getD []) then
                  .error .trustBundleInvalidJson
                else if chainRC ((safe.lookup "receipts").getD [])
                    ((safe.lookup "hashchain").getD []) ≠ 0 then
                  .error .hashchainFailed
                else .ok ()

theorem checkArtifacts_no_traversal (crcDir : PPath) (resolve : PPath → PPath)
    (exis : PPath → Bool) (arts : List (String × JVal))
    (h : ∀ k rel, (k, JVal.str rel) ∈ arts →
      crcDir.isPrefixOf (resolve (pathJoin crcDir rel)) = true) :
    ∀ k rel, checkArtifacts crcDir resolve exis arts ≠
      .error (.pathTraversal k rel) := by
  induction arts with
  | nil => intro k rel; simp [checkArtifacts]
  | cons a rest ih =>
      obtain ⟨k2, v2⟩ := a
      intro k rel
      cases v2 with
      | other => simp [checkArtifacts]
      | str rel2 =>
          unfold checkArtifacts
          dsimp only
          split
          · simp
          · rw [if_pos (h k2 rel2 (by simp))]
            split
            · rcases hrec : checkArtifacts crcDir resolve exis rest with e | s
              · intro hcon
                simp only [Except.map] at hcon
                injection hcon with he
                exact ih (fun k3 rel3 hm => h k3 rel3 (by simp [hm])) k rel
                  (by rw [hrec, he])
              · simp [Except.map]
            · simp

theorem checkArtifacts_ok_prefix (crcDir : PPath) (resolve : PPath → PPath)
    (exis : PPath → Bool) (arts : List (String × JVal))
    (safe : List (String × PPath))
    (h : checkArtifacts crcDir resolve exis arts = .ok safe) :
    ∀ k rel, (k, JVal.str rel) ∈ arts →
      crcDir.isPrefixOf (resolve (pathJoin crcDir rel)) = true := by
  induction arts generalizing safe with
  | nil => intro k rel hm; simp at hm
  | cons a rest ih =>
      obtain ⟨k2, v2⟩ := a
      cases v2 with
      | other => simp [checkArtifacts] at h
      | str rel2 =>
          unfold checkArtifacts at h
          dsimp only at h
          split at h
          · simp at h
          · split at h
            · split at h
              · rcases hrec : checkArtifacts crcDir resolve exis rest with e | s
                · rw [hrec] at h; simp [Except.map] at h
                · intro k rel hm
                  rcases (List.mem_cons).mp hm with hh | hh
                  · have hk : k2 = k ∧ rel2 = rel := by
                      constructor
                      · exact congrArg Prod.fst hh |>.symm
                      · have := congrArg Prod.snd hh
                        simp at this
                        exact this.symm
                    obtain ⟨rfl, rfl⟩ := hk
                    next hpref _ => exact hpref
                  · exact ih s hrec k rel hh
              · simp at h
            · simp at h

theorem checkArtifacts_first_traversal (crcDir : PPath)
    (resolve : PPath → PPath) (exis : PPath → Bool)
    (pre : List (String × JVal)) (k : String) (rel : String)
    (post : List (String × JVal))
    (hpre : ∀ k2 v2, (k2, v2) ∈ pre → ∃ rel2, v2 = .str rel2 ∧
      rel2.toList.all Char.isWhitespace = false ∧
      crcDir.isPrefixOf (resolve (pathJoin crcDir rel2)) = true ∧
      exis (resolve (pathJoin crcDir rel2)) = true)
    (hblank : rel.toList.all Char.isWhitespace = false)
    (htrav : crcDir.isPrefixOf (resolve (pathJoin crcDir rel)) = false) :
    checkArtifacts crcDir resolve exis (pre ++ (k, .str rel) :: post) =
      .error (.pathTraversal k rel) := by
  induction pre with
  | nil =>
      rw [List.nil_append]
      unfold checkArtifacts
      dsimp only
      rw [if_neg (by rw [hblank]; simp), if_neg (by rw [htrav]; simp)]
  | cons a t ih =>
      obtain ⟨k2, v2⟩ := a
      obtain ⟨rel2, rfl, hb2, hp2, he2⟩ := hpre k2 v2 (by simp)
      rw [List.cons_append]
      unfold checkArtifacts
      dsimp only
      rw [if_neg (by rw [hb2]; simp), if_pos hp2, if_pos he2]
      rw [ih (fun k3 v3 hm => hpre k3 v3 (by simp [hm]))]
      rfl

/-! ### Claim C4: path traversal in the bundle verifier -/

/-- Example resolver for concrete instances: purely lexical, `..` pops a
component and `.` is dropped (adequate for a filesystem without symlinks). -/
def exResolve (p : PPath) : PPath :=
  p.foldl (fun acc s =>
    if s = ".." then acc.dropLast else if s = "." then acc else acc ++ [s]) []

/-- Example filesystem for the counterexample: everything except the declared
receipts file exists inside the bundle `b`. -/
def exExists (p : PPath) : Bool :=
  ([["b", "validate_report.md"], ["b", "hashchain.txt"],
    ["b", "trust_bundle.json"]] : List PPath).contains p

/-- C4 counterexample: this manifest's artifacts mapping contains a path
(`"../evil"`) that resolves outside the bundle root, yet verification fails
with the missing-artifact error for the earlier `receipts` entry — not with
the specific path-traversal error the claim requires. -/
theorem claim_C4_counterexample :
    List.isPrefixOf ["b"] (exResolve (pathJoin ["b"] "../evil")) = false ∧
    bundle_verify ["b"] exResolve exExists (fun _ => true) (fun _ _ => 0)
      ⟨some "crovia.manifest.v1", some "CRC-1",
        some [("receipts", .str "missing.txt"),
          ("validate_report", .str "../evil"),
          ("hashchain", .str "hashchain.txt"),
          ("trust_bundle", .str "trust_bundle.json")]⟩ =
      .error (.missingArtifact "receipts" "missing.txt") := by
  exact ⟨rfl, rfl⟩

/-- C4 (amended): (a) when every artifact path resolves inside the bundle
root, verification never fails with the path-traversal error; (b) when the
mapping contains a path resolving outside the root, verification never
succeeds; and (c) when the first offending entry in mapping order is the
traversal one (all earlier entries are non-blank strings resolving inside
the root to existing files) and the manifest passes the schema, contract and
required-keys checks, verification fails with the specific path-traversal
error for that entry — for every trust-bundle reader and chain-verifier
outcome, i.e. before any artifact file is read. -/
theorem claim_C4_path_traversal_amended (crcDir : PPath)
    (resolve : PPath → PPath) (exis : PPath → Bool) (m : Manifest)
    (arts : List (String × JVal)) (hart : m.artifacts = some arts) :
    ((∀ k rel, (k, JVal.str rel) ∈ arts →
        List.isPrefixOf crcDir (resolve (pathJoin crcDir rel)) = true) →
      ∀ rj rc k rel, bundle_verify crcDir resolve exis rj rc m ≠
        .error (.pathTraversal k rel)) ∧
    ((∃ k rel, (k, JVal.str rel) ∈ arts ∧
        List.isPrefixOf crcDir (resolve (pathJoin crcDir rel)) = false) →
      ∀ rj rc, bundle_verify crcDir resolve exis rj rc m ≠ .ok ()) ∧
    (∀ pre k rel post, arts = pre ++ (k, JVal.str rel) :: post →
      (∀ k2 v2, (k2, v2) ∈ pre → ∃ rel2, v2 = .str rel2 ∧
        rel2.toList.all Char.isWhitespace = false ∧
        List.isPrefixOf crcDir (resolve (pathJoin crcDir rel2)) = true ∧
        exis (resolve (pathJoin crcDir rel2)) = true) →
      rel.toList.all Char.isWhitespace = false →
      List.isPrefixOf crcDir (resolve (pathJoin crcDir rel)) = false →
      m.schema = some "crovia.manifest.v1" →
      m.contract = some "CRC-1" →
      (∀ k0 ∈ requiredKeys, (arts.map Prod.fst).contains k0 = true) →
      ∀ rj rc, bundle_verify crcDir resolve exis rj rc m =
        .error (.pathTraversal k rel)) := by
  refine ⟨?_, ?_, ?_⟩
  · intro hall rj rc k rel hcon
    unfold bundle_verify at hcon
    rw [hart] at hcon
    split at hcon
    · simp at hcon
    · split at hcon
      · simp at hcon
      · split at hcon
        · simp at hcon
        · next arts2 heq2 =>
            injection heq2 with heq2
            subst heq2
            split at hcon
            · simp at hcon
            · split at hcon
              · next e heq =>
                  simp only [Except.error.injEq] at hcon
                  exact checkArtifacts_no_traversal crcDir resolve exis arts
                    hall k rel (by rw [heq, hcon])
              · split at hcon
                · simp at hcon
                · split at hcon
                  · simp at hcon
                  · simp at hcon
  · rintro ⟨k, rel, hm, htrav⟩ rj rc hcon
    unfold bundle_verify at hcon
    rw [hart] at hcon
    split at hcon
    · simp at hcon
    · split at hcon
      · simp at hcon
      · split at hcon
        · simp at hcon
        · next arts2 heq2 =>
            injection heq2 with heq2
            subst heq2
            split at hcon
            · simp at hcon
            · split at hcon
              · simp at hcon
              · next safe heq =>
                  have := checkArtifacts_ok_prefix crcDir resolve exis arts
                    safe heq k rel hm
                  rw [htrav] at this
                  cases this
  · intro pre k rel post harts hpre hblank htrav hschema hcontract hreq rj rc
    unfold bundle_verify
    rw [if_neg (by rw [hschema]; simp), if_neg (by rw [hcontract]; simp), hart]
    have hfind : requiredKeys.find?
        (fun k0 => !(arts.map Prod.fst).contains k0) = none := by
      rw [List.find?_eq_none]
      intro x hx
      simp only [hreq x hx]
      simp
    dsimp only
    rw [hfind]
    dsimp only
    rw [harts, checkArtifacts_first_traversal crcDir resolve exis pre k rel
      post hpre hblank htrav]

/-- The example manifest for the C4 witness: the very first artifact entry is
the traversal one. -/
def exManifest : Manifest :=
  ⟨some "crovia.manifest.v1", some "CRC-1",
    some [("receipts", .str "../evil"),
      ("validate_report", .str "validate_report.md"),
      ("hashchain", .str "hashchain.txt"),
      ("trust_bundle", .str "trust_bundle.json")]⟩

/-- Witness for C4 (amended), part (c): with the traversal entry first in
mapping order, verification fails with exactly the path-traversal error. -/
theorem claim_C4_path_traversal_amended_witness :
    ("../evil".toList.all Char.isWhitespace = false) ∧
    (List.isPrefixOf ["b"] (exResolve (pathJoin ["b"] "../evil")) = false) ∧
    bundle_verify ["b"] exResolve exExists (fun _ => true) (fun _ _ => 0)
      exManifest = .error (.pathTraversal "receipts" "../evil") := by
  refine ⟨by decide, by decide, ?_⟩
  exact (claim_C4_path_traversal_amended ["b"] exResolve exExists exManifest
      _ rfl).2.2
    [] "receipts" "../evil"
    [("validate_report", .str "validate_report.md"),
      ("hashchain", .str "hashchain.txt"),
      ("trust_bundle", .str "trust_bundle.json")]
    rfl (fun k2 v2 hm => by simp at hm) (by decide) (by decide) rfl rfl
    (by decide) (fun _ => true) (fun _ _ => 0)

end Crovia
